import Mathlib

/-!
Shallow embedding of `scripts/get_distance_to_focal_set.py`: the SNP encoder
(`calculate_snp_matrix`), the pairwise distance engine
(`calculate_distance_matrix`), the closest-match selection of the main chunk
loop, and the encoder's growable triple buffers.  Sparse matrix rows are
embedded as dense `List Nat` rows (an implicit zero of the `scipy` CSC matrix
and a structural zero carry the same meaning in every operation the script
performs on them), machine integers as `Nat`/`Int` (all values involved are
small ASCII codes and counts, so no overflow is reachable), and the Python
`ValueError` as `Except.error`.
-/

namespace Ncov

/-- ASCII lowercasing of one byte, the effect of `str.lower()` followed by
`np.frombuffer(..., dtype=np.int8)` on an ASCII character (line 37). -/
def asciiLower (v : Nat) : Nat :=
  if 65 ≤ v ∧ v ≤ 90 then v + 32 else v

/-- Embedding of `sequence_to_int_array` (lines 31-42): every symbol becomes its lowercase
ASCII code; codes other than a/c/g/t (97/99/103/116) are coerced to
`fill_value`, except that with `fill_gaps = false` the gap code 45 is kept. -/
def sequence_to_int_array (s : String) (fill_value : Nat) (fill_gaps : Bool) : List Nat :=
  s.data.map (fun c =>
    let v := asciiLower c.toNat
    if v = 97 ∨ v = 99 ∨ v = 103 ∨ v = 116 then v
    else if fill_gaps = false ∧ v = 45 then v
    else fill_value)

/-- Dense view of the sparse row the encoder appends for one sequence
(lines 82, 95-97): the sequence's code where it differs from the consensus and
is not the fill value, and the implicit zero everywhere else. -/
def snpRow (consensus s : List Nat) (fill_value : Nat) : List Nat :=
  List.zipWith (fun c v => if c ≠ v ∧ v ≠ fill_value then v else 0) consensus s

/-- Embedding of `np.where(s == fill_value)[0]` (line 84): the indices at which the encoded
sequence carries the fill value. -/
def filledPositions (s : List Nat) (fill_value : Nat) : List Nat :=
  (List.range s.length).filter (fun p => s.getD p 0 = fill_value)

/-- One FASTA record as the encoder sees it: a name and the raw symbol string. -/
structure SeqRecord where
  name : String
  seq : String
deriving DecidableEq

/-- The dictionary returned by `calculate_snp_matrix` (line 114). -/
structure SnpResult where
  snps : List (List Nat)
  consensus : List Nat
  names : List String
  filled_positions : List (List Nat)
deriving DecidableEq

/-- Lines 104-114: a run of the encoder that accepted zero sequences yields
`None`; otherwise the accumulated rows, consensus, names and masked-position
lists are packaged up.  The unconsumed records model the state the Python
generator is left in. -/
def snpFinish (consensus : Option (List Nat)) (nseqs : Nat) (ns : List String)
    (rows fps : List (List Nat)) (remaining : List SeqRecord) :
    Option SnpResult × List SeqRecord :=
  if nseqs = 0 then (none, remaining)
  else (some ⟨rows, consensus.getD [], ns, fps⟩, remaining)

/-- The record loop of `calculate_snp_matrix` (lines 62-102): skip ignored
names, establish the consensus from the first accepted record when none was
given, fail on a length mismatch, append the record's SNP row and masked
positions, and stop early once `chunk_size` records have been accepted. -/
def snpLoop (fill_value chunk_size : Nat) (ignore_seqs : List String) :
    List SeqRecord → Option (List Nat) → Nat → List String → List (List Nat) →
      List (List Nat) → Except String (Option SnpResult × List SeqRecord)
  | [], consensus, nseqs, ns, rows, fps =>
      .ok (snpFinish consensus nseqs ns rows fps [])
  | r :: rest, consensus, nseqs, ns, rows, fps =>
      if r.name ∈ ignore_seqs then
        snpLoop fill_value chunk_size ignore_seqs rest consensus nseqs ns rows fps
      else
        let cons := consensus.getD (sequence_to_int_array r.seq fill_value true)
        if r.seq.length ≠ cons.length then
          .error "Fasta file appears to have sequences of different lengths!"
        else
          if chunk_size ≠ 0 ∧ nseqs + 1 = chunk_size then
            .ok (snpFinish (some cons) (nseqs + 1) (ns ++ [r.name])
              (rows ++ [snpRow cons (sequence_to_int_array r.seq fill_value true) fill_value])
              (fps ++ [filledPositions (sequence_to_int_array r.seq fill_value true) fill_value])
              rest)
          else
            snpLoop fill_value chunk_size ignore_seqs rest (some cons) (nseqs + 1)
              (ns ++ [r.name])
              (rows ++ [snpRow cons (sequence_to_int_array r.seq fill_value true) fill_value])
              (fps ++ [filledPositions (sequence_to_int_array r.seq fill_value true) fill_value])

/-- Embedding of `calculate_snp_matrix` (lines 45-114) on a list of records. -/
def calculate_snp_matrix (records : List SeqRecord) (consensus : Option (List Nat))
    (fill_value chunk_size : Nat) (ignore_seqs : List String) :
    Except String (Option SnpResult × List SeqRecord) :=
  snpLoop fill_value chunk_size ignore_seqs records consensus 0 [] [] []

/-- Entry `(i, j)` of the sparse product `(1*(A == x)) * (B == x).transpose()`
(lines 122-125, 131): the number of aligned positions at which both rows carry
the code `x`. -/
def eqProd (x : Nat) : List Nat → List Nat → Nat
  | a :: l1, b :: l2 => (if a = x ∧ b = x then 1 else 0) + eqProd x l1 l2
  | _, _ => 0

/-- Entry `(i, j)` of `(1*(A > 0)) * (B.transpose() > 0)` (line 140): the number
of positions at which both rows are non-zero. -/
def nzProd : List Nat → List Nat → Nat
  | a :: l1, b :: l2 => (if 0 < a ∧ 0 < b then 1 else 0) + nzProd l1 l2
  | _, _ => 0

/-- One row sum of `(1*(A > 0)).sum(1)` (lines 136-137): the number of non-zero
cells of the row. -/
def nzCount : List Nat → Nat
  | [] => 0
  | a :: l => (if 0 < a then 1 else 0) + nzCount l

/-- One row sum of `(1*(A == x)).sum(1)` (lines 144-146): the number of cells of
the row equal to `x`. -/
def eqCount (x : Nat) : List Nat → Nat
  | [] => 0
  | a :: l => (if a = x then 1 else 0) + eqCount x l

/-- Entry `(i, j)` of the matrix returned by `calculate_distance_matrix`
(line 150): `temp_total - total_differences_shared - d - diff_n`, where `d` is
the four per-base agreement products plus the `n_comp` product (lines 122-132)
and `diff_n = n_total - 2*n_comp` (line 149). -/
def dEntry (a b : List Nat) : Int :=
  ((nzCount a + nzCount b : Nat) : Int) - ((nzProd a b : Nat) : Int)
    - (((eqProd 97 a b + eqProd 99 a b + eqProd 103 a b + eqProd 116 a b : Nat) : Int)
        + ((eqProd 110 a b : Nat) : Int))
    - (((eqCount 110 a + eqCount 110 b : Nat) : Int) - 2 * ((eqProd 110 a b : Nat) : Int))

/-- Embedding of `calculate_distance_matrix` (lines 117-154) on dense row lists.  The
`consensus` argument is accepted and ignored exactly as in the source. -/
def calculate_distance_matrix (A B : List (List Nat)) (consensus : List Nat) :
    List (List Int) :=
  A.map (fun a => B.map (fun b => dEntry a b))

/-- Index of the first minimal entry of a list, the behaviour of `np.argmin`
on one row (line 207); `np.argmin` of an empty row is modelled as 0. -/
def argmin : List ℚ → Nat
  | [] => 0
  | [_] => 0
  | x :: y :: l =>
      if (y :: l).getD (argmin (y :: l)) 0 < x then argmin (y :: l) + 1 else 0

/-- Embedding of `mask_count_focal` (line 202): the per-focal-sequence masked-position
counts. -/
def maskCountFocal (focal : SnpResult) : List Nat :=
  focal.filled_positions.map List.length

/-- One row of `d + mask_count_focal / alignment_length` (line 207). -/
def adjustedRow (drow : List Int) (maskF : List Nat) (L : Nat) : List ℚ :=
  List.zipWith (fun d m => ((d : Int) : ℚ) + ((m : Nat) : ℚ) / ((L : Nat) : ℚ)) drow maskF

/-- The focal index `closest_match` picks for one distance row (line 207). -/
def closestFocal (focal : SnpResult) (L : Nat) (drow : List Int) : Nat :=
  argmin (adjustedRow drow (maskCountFocal focal) L)

/-- Lines 202-216 for one context chunk: for every context sequence, the
closest focal name and the raw distance to it, in row order. -/
def chunkResults (focal : SnpResult) (L : Nat) (ctx : SnpResult) :
    List (String × String × Int) :=
  List.zipWith (fun h drow =>
      (h, focal.names.getD (closestFocal focal L drow) "",
        drow.getD (closestFocal focal L drow) 0))
    ctx.names (calculate_distance_matrix ctx.snps focal.snps ctx.consensus)

/-- The `while True` chunk loop of `__main__` (lines 193-218), with explicit
fuel standing in for the termination argument that the finite input stream is
eventually exhausted. -/
def mainLoopAux (focal : SnpResult) (ref : List Nat) (k : Nat) :
    Nat → List SeqRecord → Except String (List (String × String × Int))
  | 0, _ => .ok []
  | fuel + 1, records =>
      match calculate_snp_matrix records (some ref) 110 k [] with
      | .error e => .error e
      | .ok (none, _) => .ok []
      | .ok (some ctx, rest) =>
          match mainLoopAux focal ref k fuel rest with
          | .error e => .error e
          | .ok tl => .ok (chunkResults focal ref.length ctx ++ tl)

/-- The chunk loop run on a context record stream: chunk size `k`, alignment
length `len(ref)` (line 171), consensus supplied explicitly (line 194). -/
def mainChunkLoop (focal : SnpResult) (ref : List Nat) (k : Nat)
    (records : List SeqRecord) : Except String (List (String × String × Int)) :=
  mainLoopAux focal ref k (records.length + 1) records

/-- The per-record value both chunked and single-chunk processing are shown to
compute: the record's SNP row, its distance row against the focal rows, and the
closest focal name with the raw distance. -/
def recordResult (focal : SnpResult) (ref : List Nat) (r : SeqRecord) :
    String × String × Int :=
  (r.name,
    focal.names.getD
      (closestFocal focal ref.length
        (focal.snps.map (fun b =>
          dEntry (snpRow ref (sequence_to_int_array r.seq 110 true) 110) b))) "",
    (focal.snps.map (fun b =>
        dEntry (snpRow ref (sequence_to_int_array r.seq 110 true) 110) b)).getD
      (closestFocal focal ref.length
        (focal.snps.map (fun b =>
          dEntry (snpRow ref (sequence_to_int_array r.seq 110 true) 110) b))) 0)

/-- Count of records in a prefix that the encoder accepts (is not told to
ignore); used to say that the record cap has not yet been reached. -/
def acceptedCount (ignore_seqs : List String) (recs : List SeqRecord) : Nat :=
  recs.countP (fun r => decide (r.name ∉ ignore_seqs))

/-- Number of positions of an encoded sequence that are masked, as the claims
word it: the encoded symbol is the unknown code 110. -/
def maskedCount : List Nat → Nat
  | [] => 0
  | v :: l => (if v = 110 then 1 else 0) + maskedCount l

/-- Number of aligned positions at which both encoded sequences are masked. -/
def bothMaskedCount : List Nat → List Nat → Nat
  | x :: l1, y :: l2 => (if x = 110 ∧ y = 110 then 1 else 0) + bothMaskedCount l1 l2
  | _, _ => 0

/-- Number of positions that are noteworthy for a sequence in the sense of the
specification: the encoded symbol deviates from the reference or is masked. -/
def noteworthyCount : List Nat → List Nat → Nat
  | c :: cs, v :: vs => (if c ≠ v ∨ v = 110 then 1 else 0) + noteworthyCount cs vs
  | _, _ => 0

/-- Number of positions noteworthy in both sequences at once. -/
def noteworthyBothCount : List Nat → List Nat → List Nat → Nat
  | c :: cs, x :: xs, y :: ys =>
      (if (c ≠ x ∨ x = 110) ∧ (c ≠ y ∨ y = 110) then 1 else 0)
        + noteworthyBothCount cs xs ys
  | _, _, _ => 0

/-- Number of positions at which both sequences carry the same non-reference
base (the same code, different from the reference and not masked). -/
def sameBaseCount : List Nat → List Nat → List Nat → Nat
  | c :: cs, x :: xs, y :: ys =>
      (if x = y ∧ x ≠ c ∧ x ≠ 110 then 1 else 0) + sameBaseCount cs xs ys
  | _, _, _ => 0

/-- The per-pair distance exactly as the specification words it (for comparison
with `dEntry`): union of noteworthy positions, minus same-non-reference-base
matches, minus masked positions unique to one side. -/
def specClaimDistance (c x y : List Nat) : Int :=
  (((noteworthyCount c x : Nat) : Int) + ((noteworthyCount c y : Nat) : Int)
      - ((noteworthyBothCount c x y : Nat) : Int))
    - ((sameBaseCount c x y : Nat) : Int)
    - (((maskedCount x : Nat) : Int) + ((maskedCount y : Nat) : Int)
        - 2 * ((bothMaskedCount x y : Nat) : Int))

/-- Embedding of `np.sum(snps)` for one record (line 83): the number of SNP triples the
record appends to the coordinate buffers. -/
def snpTripleCount : List Nat → List Nat → Nat
  | c :: cs, v :: vs => (if c ≠ v ∧ v ≠ 110 then 1 else 0) + snpTripleCount cs vs
  | _, _ => 0

/-- The encoder's buffer bookkeeping: triples written so far and the current
capacity of the `row`/`col`/`val` buffers. -/
structure BufferState where
  n_snps : Nat
  current_length : Nat
deriving DecidableEq

/-- Lines 83 and 88-99 for one record contributing `delta` triples:
`right = n_snps + delta`; when `right >= current_length/2` (the capacities are
even, so this is `current_length ≤ 2*right`) the buffers grow by
`INITIALISATION_LENGTH`; the slice write then covers indices below `right` and
`n_snps` becomes `right`. -/
def bufferStep (st : BufferState) (delta : Nat) : BufferState :=
  ⟨st.n_snps + delta,
    if st.current_length ≤ 2 * (st.n_snps + delta) then st.current_length + 1000000
    else st.current_length⟩

/-- The trace of buffer states over the accepted records of one encoder run,
starting from the initial allocation of `INITIALISATION_LENGTH` (lines 51-60). -/
def bufferTrace (cons : List Nat) (seqs : List String) : List BufferState :=
  List.scanl bufferStep ⟨0, 1000000⟩
    (seqs.map (fun s => snpTripleCount cons (sequence_to_int_array s 110 true)))

/-- A small concrete focal set used to instantiate hypothesis-bearing
theorems. -/
def focalW : SnpResult := ⟨[[99], [0]], [97], ["f1", "f2"], [[], [0]]⟩

/-! ### Helper lemmas -/

theorem conv_length (s : String) (fv : Nat) (fg : Bool) :
    (sequence_to_int_array s fv fg).length = s.length := by
  simp only [sequence_to_int_array, List.length_map]
  rfl

theorem eqProd_comm (x : Nat) (l1 l2 : List Nat) : eqProd x l1 l2 = eqProd x l2 l1 := by
  induction l1 generalizing l2 with
  | nil => cases l2 <;> rfl
  | cons a l1 ih =>
      cases l2 with
      | nil => rfl
      | cons b l2 =>
          simp only [eqProd, ih]
          congr 1
          by_cases h1 : a = x <;> by_cases h2 : b = x <;> simp [h1, h2]

theorem nzProd_comm (l1 l2 : List Nat) : nzProd l1 l2 = nzProd l2 l1 := by
  induction l1 generalizing l2 with
  | nil => cases l2 <;> rfl
  | cons a l1 ih =>
      cases l2 with
      | nil => rfl
      | cons b l2 =>
          simp only [nzProd, ih]
          congr 1
          by_cases h1 : 0 < a <;> by_cases h2 : 0 < b <;> simp [h1, h2]

theorem dEntry_comm (a b : List Nat) : dEntry a b = dEntry b a := by
  simp only [dEntry]
  rw [eqProd_comm 97 a b, eqProd_comm 99 a b, eqProd_comm 103 a b, eqProd_comm 116 a b,
    eqProd_comm 110 a b, nzProd_comm a b]
  push_cast
  ring

theorem headBound (a b : Nat) :
    (if a = 97 ∧ b = 97 then 1 else 0) + (if a = 99 ∧ b = 99 then 1 else 0)
      + (if a = 103 ∧ b = 103 then 1 else 0) + (if a = 116 ∧ b = 116 then 1 else 0)
      + (if 0 < a ∧ 0 < b then 1 else 0)
    ≤ (if 0 < a then 1 else 0) + (if 0 < b then 1 else 0) := by
  split_ifs <;> omega

theorem prodBound (l1 l2 : List Nat) :
    eqProd 97 l1 l2 + eqProd 99 l1 l2 + eqProd 103 l1 l2 + eqProd 116 l1 l2
        + nzProd l1 l2
      ≤ nzCount l1 + nzCount l2 := by
  induction l1 generalizing l2 with
  | nil => simp [eqProd, nzProd]
  | cons a l1 ih =>
      cases l2 with
      | nil => simp [eqProd, nzProd]
      | cons b l2 =>
          have h1 := headBound a b
          have h2 := ih l2
          simp only [eqProd, nzProd, nzCount]
          omega

theorem snpRow_ne_fill (c s : List Nat) (x : Nat) (hx : x ∈ snpRow c s 110) : x ≠ 110 := by
  induction c generalizing s with
  | nil => simp [snpRow] at hx
  | cons a c ih =>
      cases s with
      | nil => simp [snpRow] at hx
      | cons v s =>
          simp only [snpRow, List.zipWith_cons_cons, List.mem_cons] at hx
          rcases hx with h | h
          · subst h
            split_ifs with hc
            · exact hc.2
            · decide
          · exact ih s h

theorem eqProd110_zero (l1 l2 : List Nat) (h : ∀ x ∈ l1, x ≠ 110) :
    eqProd 110 l1 l2 = 0 := by
  induction l1 generalizing l2 with
  | nil => cases l2 <;> rfl
  | cons a l1 ih =>
      cases l2 with
      | nil => rfl
      | cons b l2 =>
          have ha : a ≠ 110 := h a (List.mem_cons_self _ _)
          simp only [eqProd, ih l2 (fun x hx => h x (List.mem_cons_of_mem _ hx))]
          simp [ha]

theorem eqCount110_zero (l : List Nat) (h : ∀ x ∈ l, x ≠ 110) : eqCount 110 l = 0 := by
  induction l with
  | nil => rfl
  | cons a l ih =>
      have ha : a ≠ 110 := h a (List.mem_cons_self _ _)
      simp only [eqCount, ih (fun x hx => h x (List.mem_cons_of_mem _ hx))]
      simp [ha]

theorem dEntry_nonneg (a b : List Nat) (ha : ∀ x ∈ a, x ≠ 110) (hb : ∀ x ∈ b, x ≠ 110) :
    0 ≤ dEntry a b := by
  have h1 := eqProd110_zero a b ha
  have h2 := eqCount110_zero a ha
  have h3 := eqCount110_zero b hb
  have h4 := prodBound a b
  simp only [dEntry, h1, h2, h3]
  push_cast
  omega

theorem nzCount_replicate_zero (n : Nat) : nzCount (List.replicate n 0) = 0 := by
  induction n with
  | zero => rfl
  | succ n ih => simp [List.replicate, nzCount, ih]

theorem snpRow_self (c : List Nat) : snpRow c c 110 = List.replicate c.length 0 := by
  induction c with
  | nil => rfl
  | cons a c ih => simp [snpRow, List.replicate] at ih ⊢

theorem nzCount_snpRow_self (c : List Nat) : nzCount (snpRow c c 110) = 0 := by
  rw [snpRow_self]
  exact nzCount_replicate_zero _

theorem argmin_lt_length (l : List ℚ) (hl : l ≠ []) : argmin l < l.length := by
  induction l with
  | nil => simp at hl
  | cons x l ih =>
      cases l with
      | nil => simp [argmin]
      | cons y t =>
          simp only [argmin]
          by_cases h : (y :: t).getD (argmin (y :: t)) 0 < x

          · rw [if_pos h]
            have := ih (by simp)
            simpa [Nat.succ_lt_succ_iff] using this
          · rw [if_neg h]
            simp

theorem argmin_le (l : List ℚ) : ∀ i, i < l.length → l.getD (argmin l) 0 ≤ l.getD i 0 := by
  induction l with
  | nil => intro i hi; simp at hi
  | cons x l ih =>
      cases l with
      | nil =>
          intro i hi
          have hi0 : i = 0 := by simpa using hi
          subst hi0
          simp [argmin]
      | cons y t =>
          intro i hi
          simp only [argmin]
          by_cases h : (y :: t).getD (argmin (y :: t)) 0 < x
          · rw [if_pos h, List.getD_cons_succ]
            cases i with
            | zero => rw [List.getD_cons_zero]; exact le_of_lt h
            | succ i' =>
                rw [List.getD_cons_succ]
                exact ih i' (by simpa using hi)
          · rw [if_neg h, List.getD_cons_zero]
            cases i with
            | zero => rw [List.getD_cons_zero]
            | succ i' =>
                rw [List.getD_cons_succ]
                exact le_trans (not_lt.mp h) (ih i' (by simpa using hi))

theorem getD_zipWith {α β γ : Type} (f : α → β → γ) (l1 : List α) (l2 : List β)
    (i : Nat) (d1 : α) (d2 : β) (d : γ) (h1 : i < l1.length) (h2 : i < l2.length) :
    (List.zipWith f l1 l2).getD i d = f (l1.getD i d1) (l2.getD i d2) := by
  induction l1 generalizing l2 i with
  | nil => simp at h1
  | cons a l1 ih =>
      cases l2 with
      | nil => simp at h2
      | cons b l2 =>
          cases i with
          | zero => simp
          | succ i' =>
              simp only [List.zipWith_cons_cons, List.getD_cons_succ]
              exact ih l2 i' (by simpa using h1) (by simpa using h2)

theorem getD_map {α β : Type} (f : α → β) (l : List α) (i : Nat) (d' : α) (d : β)
    (h : i < l.length) :
    (l.map f).getD i d = f (l.getD i d') := by
  induction l generalizing i with
  | nil => simp at h
  | cons a l ih =>
      cases i with
      | zero => simp
      | succ i' =>
          simp only [List.map_cons, List.getD_cons_succ]
          exact ih i' (by simpa using h)

/-! ### Claim theorems (first batch) -/

/-- C4: for any two SNP matrices `A` and `B` (and any ignored consensus
argument), entry `(i, j)` of `calculate_distance_matrix A B` equals entry
`(j, i)` of `calculate_distance_matrix B A`; out-of-range indices agree on the
default entry as well, so the statement is unconditional. -/
theorem distance_matrix_symmetric (A B : List (List Nat)) (consensus : List Nat)
    (i j : Nat) :
    ((calculate_distance_matrix A B consensus).getD i []).getD j 0
      = ((calculate_distance_matrix B A consensus).getD j []).getD i 0 := by
  simp only [calculate_distance_matrix, List.getD_eq_getElem?_getD, List.getElem?_map]
  rcases hA : A[i]? with _ | a <;> rcases hB : B[j]? with _ | b <;>
    simp [hA, hB, dEntry_comm]

/-- C9: every entry of the distance matrix computed on two sets of sequences
encoded as SNP rows against the same reference is non-negative (out-of-range
indices read the default 0, which is also non-negative). -/
theorem distance_entries_nonneg (cons : List Nat) (A B : List String) (i j : Nat) :
    0 ≤ ((calculate_distance_matrix
          (A.map (fun s => snpRow cons (sequence_to_int_array s 110 true) 110))
          (B.map (fun s => snpRow cons (sequence_to_int_array s 110 true) 110))
          cons).getD i []).getD j 0 := by
  simp only [calculate_distance_matrix, List.getD_eq_getElem?_getD, List.getElem?_map,
    List.map_map]
  rcases hA : A[i]? with _ | sa
  · simp [hA]
  · rcases hB : B[j]? with _ | sb
    · simp [hA, hB]
    · simp only [hA, Option.map_some', Option.getD_some, List.getElem?_map,
        Function.comp, hB, Option.getD_some]
      exact dEntry_nonneg _ _ (fun x hx => snpRow_ne_fill cons _ x hx)
        (fun x hx => snpRow_ne_fill cons _ x hx)

/-- C8 counterexample: encoding the sequence "n" against itself as reference
yields a row with zero non-zero entries, but its masked-position list is `[0]`,
not empty, refuting the claim that the masked-position list is empty. -/
theorem self_encoding_counterexample :
    calculate_snp_matrix [⟨"s", "n"⟩] (some (sequence_to_int_array "n" 110 true)) 110 0 []
        = .ok (some ⟨[[0]], [110], ["s"], [[0]]⟩, [])
      ∧ ([0] : List Nat) ≠ [] := by
  exact ⟨rfl, by decide⟩

/-- C8 amended: encoding a sequence `S` against itself as both the only record
and the reference yields one SNP row with zero non-zero entries, and the
masked-position list for that row is exactly the list of positions at which the
normalized symbol of `S` is the unknown code (so it is empty only when `S`
consists solely of a/c/g/t letters). -/
theorem self_encoding_amended (h S : String) :
    calculate_snp_matrix [⟨h, S⟩] (some (sequence_to_int_array S 110 true)) 110 0 []
        = .ok (some ⟨[snpRow (sequence_to_int_array S 110 true)
                        (sequence_to_int_array S 110 true) 110],
            sequence_to_int_array S 110 true, [h],
            [filledPositions (sequence_to_int_array S 110 true) 110]⟩, [])
      ∧ nzCount (snpRow (sequence_to_int_array S 110 true)
          (sequence_to_int_array S 110 true) 110) = 0 := by
  constructor
  · simp [calculate_snp_matrix, snpLoop, snpFinish, conv_length]
  · exact nzCount_snpRow_self _

/-- C1: at reference "aa" with sequences "na" and "ca", the code's distance
entry is 1, while the formula the claim states (union of noteworthy positions
minus same-base matches minus masked positions unique to one side) gives 0:
the encoder never stores masked positions, so they are absent from the
"noteworthy" (non-zero) counts and the masked corrections of the engine all
vanish. -/
theorem distance_formula_divergence :
    dEntry (snpRow (sequence_to_int_array "aa" 110 true)
              (sequence_to_int_array "na" 110 true) 110)
           (snpRow (sequence_to_int_array "aa" 110 true)
              (sequence_to_int_array "ca" 110 true) 110) = 1
      ∧ specClaimDistance (sequence_to_int_array "aa" 110 true)
          (sequence_to_int_array "na" 110 true)
          (sequence_to_int_array "ca" 110 true) = 0 := by
  exact ⟨by decide, by decide⟩

/-- C2: at reference "aa" with both sequences "nn", the shared-masked term the
engine computes (the is-unknown indicator product over the SNP rows) is 0,
while both sequences are masked at 2 positions: the encoder excludes
fill-value positions from the matrix, so no cell ever equals 110. -/
theorem shared_masked_term_divergence :
    eqProd 110 (snpRow (sequence_to_int_array "aa" 110 true)
                  (sequence_to_int_array "nn" 110 true) 110)
               (snpRow (sequence_to_int_array "aa" 110 true)
                  (sequence_to_int_array "nn" 110 true) 110) = 0
      ∧ bothMaskedCount (sequence_to_int_array "nn" 110 true)
          (sequence_to_int_array "nn" 110 true) = 2 := by
  exact ⟨by decide, by decide⟩

/-- C3: at reference "a" with sequences "n" and "c", the only position is
masked in exactly one of the two sequences (masked in the first, a SNP in the
second), yet the code's distance entry is 1, not the 0 the claim requires: the
masked side contributes nothing to the matrix, so the unmasked side's SNP is
counted as a full difference. -/
theorem single_masked_position_counted :
    dEntry (snpRow (sequence_to_int_array "a" 110 true)
              (sequence_to_int_array "n" 110 true) 110)
           (snpRow (sequence_to_int_array "a" 110 true)
              (sequence_to_int_array "c" 110 true) 110) = 1
      ∧ maskedCount (sequence_to_int_array "n" 110 true) = 1
      ∧ maskedCount (sequence_to_int_array "c" 110 true) = 0 := by
  exact ⟨by decide, by decide, by decide⟩

/-- C7: for a context row `a`, the focal index picked by the closest-match
computation (line 207) is in range and minimizes
`d[i, j] + masked-count(focal j) / alignment_length` over all focal indices
`j`; the adjustment uses only the focal sequence's masked count, never the
context sequence's. -/
theorem closest_match_minimizes (focal : SnpResult) (L : Nat) (a : List Nat)
    (hm : (maskCountFocal focal).length = focal.snps.length)
    (hne : focal.snps ≠ []) :
    closestFocal focal L (focal.snps.map (fun b => dEntry a b)) < focal.snps.length ∧
    ∀ j, j < focal.snps.length →
      (((dEntry a (focal.snps.getD
            (closestFocal focal L (focal.snps.map (fun b => dEntry a b))) []) : Int) : ℚ)
          + (((maskCountFocal focal).getD
              (closestFocal focal L (focal.snps.map (fun b => dEntry a b))) 0 : Nat) : ℚ)
            / ((L : Nat) : ℚ))
        ≤ ((dEntry a (focal.snps.getD j []) : Int) : ℚ)
            + (((maskCountFocal focal).getD j 0 : Nat) : ℚ) / ((L : Nat) : ℚ) := by
  have hlen_d : (focal.snps.map (fun b => dEntry a b)).length = focal.snps.length :=
    List.length_map _ _
  have hlen_adj :
      (adjustedRow (focal.snps.map (fun b => dEntry a b)) (maskCountFocal focal) L).length
        = focal.snps.length := by
    simp [adjustedRow, List.length_zipWith, hlen_d, hm]
  have hne' :
      adjustedRow (focal.snps.map (fun b => dEntry a b)) (maskCountFocal focal) L ≠ [] := by
    intro h0
    apply hne
    have h1 := congrArg List.length h0
    rw [hlen_adj] at h1
    exact List.length_eq_zero.mp h1
  have hlt :
      argmin (adjustedRow (focal.snps.map (fun b => dEntry a b)) (maskCountFocal focal) L)
        < focal.snps.length := by
    have := argmin_lt_length _ hne'
    rwa [hlen_adj] at this
  have hval : ∀ i, i < focal.snps.length →
      (adjustedRow (focal.snps.map (fun b => dEntry a b)) (maskCountFocal focal) L).getD i 0
        = ((dEntry a (focal.snps.getD i []) : Int) : ℚ)
            + (((maskCountFocal focal).getD i 0 : Nat) : ℚ) / ((L : Nat) : ℚ) := by
    intro i hi
    rw [adjustedRow, getD_zipWith _ _ _ i 0 0 _ (by rw [hlen_d]; exact hi)
      (by rw [hm]; exact hi)]
    rw [getD_map (fun b => dEntry a b) focal.snps i [] 0 hi]
  refine ⟨hlt, fun j hj => ?_⟩
  have h1 := argmin_le
    (adjustedRow (focal.snps.map (fun b => dEntry a b)) (maskCountFocal focal) L) j
    (by rw [hlen_adj]; exact hj)
  rw [hval _ hlt, hval _ hj] at h1
  exact h1

theorem snpLoop_error_of_bad (fv k : Nat) (ig : List String) (cons : List Nat)
    (bad : SeqRecord) (post : List SeqRecord)
    (hb1 : bad.name ∉ ig) (hb2 : bad.seq.length ≠ cons.length) :
    ∀ (pre : List SeqRecord) (nseqs : Nat) (ns : List String) (rows fps : List (List Nat)),
      (∀ r ∈ pre, r.name ∉ ig → r.seq.length = cons.length) →
      (k = 0 ∨ nseqs + acceptedCount ig pre < k) →
      snpLoop fv k ig (pre ++ bad :: post) (some cons) nseqs ns rows fps =
        .error "Fasta file appears to have sequences of different lengths!" := by
  intro pre
  induction pre with
  | nil =>
      intro nseqs ns rows fps hpre hcap
      simp only [List.nil_append, snpLoop]
      rw [if_neg hb1]
      simp only [Option.getD_some]
      rw [if_pos hb2]
  | cons r pre ih =>
      intro nseqs ns rows fps hpre hcap
      simp only [List.cons_append, snpLoop]
      by_cases hr : r.name ∈ ig
      · rw [if_pos hr]
        apply ih nseqs ns rows fps
          (fun x hx hxig => hpre x (List.mem_cons_of_mem _ hx) hxig)
        rcases hcap with h0 | hlt
        · exact Or.inl h0
        · refine Or.inr ?_
          have hacc : acceptedCount ig (r :: pre) = acceptedCount ig pre := by
            simp [acceptedCount, List.countP_cons, hr]
          omega
      · rw [if_neg hr]
        simp only [Option.getD_some]
        have hrlen : r.seq.length = cons.length := hpre r (List.mem_cons_self _ _) hr
        rw [if_neg (by simp [hrlen])]
        have hacc : acceptedCount ig (r :: pre) = acceptedCount ig pre + 1 := by
          simp [acceptedCount, List.countP_cons, hr]
        have hnochunk : ¬ (k ≠ 0 ∧ nseqs + 1 = k) := by
          rcases hcap with h0 | hlt
          · intro hc; exact hc.1 h0
          · intro hc; omega
        rw [if_neg hnochunk]
        apply ih (nseqs + 1) (ns ++ [r.name]) _ _
          (fun x hx hxig => hpre x (List.mem_cons_of_mem _ hx) hxig)
        rcases hcap with h0 | hlt
        · exact Or.inl h0
        · exact Or.inr (by omega)

/-- C6: if an accepted record (one neither ignored nor beyond the record cap)
has a sequence length different from the established reference length, the
encoder raises the `ValueError` at that record: no SNP matrix is produced for
the invocation, and nothing is truncated or padded. -/
theorem length_mismatch_fails (fv k : Nat) (ig : List String) (cons : List Nat)
    (pre : List SeqRecord) (bad : SeqRecord) (post : List SeqRecord)
    (hb1 : bad.name ∉ ig) (hb2 : bad.seq.length ≠ cons.length)
    (hpre : ∀ r ∈ pre, r.name ∉ ig → r.seq.length = cons.length)
    (hcap : k = 0 ∨ acceptedCount ig pre < k) :
    calculate_snp_matrix (pre ++ bad :: post) (some cons) fv k ig =
      .error "Fasta file appears to have sequences of different lengths!" := by
  apply snpLoop_error_of_bad fv k ig cons bad post hb1 hb2 pre 0 [] [] [] hpre
  simpa using hcap

/-- Witness for C6: a single two-symbol record against a one-symbol reference
makes the encoder fail. -/
theorem length_mismatch_fails_witness :
    ((⟨"x", "aa"⟩ : SeqRecord).name ∉ ([] : List String))
      ∧ (⟨"x", "aa"⟩ : SeqRecord).seq.length ≠ ([97] : List Nat).length
      ∧ calculate_snp_matrix [⟨"x", "aa"⟩] (some [97]) 110 0 [] =
          .error "Fasta file appears to have sequences of different lengths!" :=
  ⟨by decide, by decide,
    length_mismatch_fails 110 0 [] [97] [] ⟨"x", "aa"⟩ [] (by decide) (by decide)
      (by intro r hr; simp at hr) (Or.inl rfl)⟩

/-- Witness for C7 at a concrete focal set, alignment length, and context
row. -/
theorem closest_match_minimizes_witness :
    (maskCountFocal focalW).length = focalW.snps.length
      ∧ focalW.snps ≠ []
      ∧ closestFocal focalW 1 (focalW.snps.map (fun b => dEntry [0] b))
          < focalW.snps.length :=
  ⟨by decide, by decide, (closest_match_minimizes focalW 1 [0] (by decide) (by decide)).1⟩

theorem snpTripleCount_le (c v : List Nat) : snpTripleCount c v ≤ c.length := by
  induction c generalizing v with
  | nil => cases v <;> simp [snpTripleCount]
  | cons a c ih =>
      cases v with
      | nil => simp [snpTripleCount]
      | cons b v =>
          simp only [snpTripleCount, List.length_cons]
          have := ih v
          split <;> omega

theorem bufferStep_invariant : ∀ (deltas : List Nat) (st : BufferState),
    (∀ d ∈ deltas, d ≤ 500000) → 2 * st.n_snps ≤ st.current_length →
    ∀ st' ∈ List.scanl bufferStep st deltas, 2 * st'.n_snps ≤ st'.current_length := by
  intro deltas
  induction deltas with
  | nil =>
      intro st _ hst st' hmem
      simp only [List.scanl_nil, List.mem_singleton] at hmem
      subst hmem
      exact hst
  | cons d deltas ih =>
      intro st hd hst st' hmem
      rw [List.scanl_cons] at hmem
      rcases List.mem_cons.mp hmem with h | h
      · subst h; exact hst
      · refine ih (bufferStep st d) (fun x hx => hd x (List.mem_cons_of_mem _ hx)) ?_ st' h
        have hd0 : d ≤ 500000 := hd d (List.mem_cons_self _ _)
        simp only [bufferStep]
        split <;> omega

/-- C10: if every accepted record contributes at most 500000 SNP triples, then
every state in the buffer trace — the state right after each record's single
growth step, which is what the slice writes at lines 95-97 see — has its triple
count within the buffer capacity, and indeed within half of it, so every slice
write is in bounds and encoding never fails from buffer exhaustion.  (In
particular, `snpTripleCount_le` shows the per-record bound holds whenever the
alignment length is at most 500000.) -/
theorem buffer_growth_invariant (cons : List Nat) (seqs : List String)
    (hd : ∀ s ∈ seqs, snpTripleCount cons (sequence_to_int_array s 110 true) ≤ 500000) :
    ∀ st ∈ bufferTrace cons seqs,
      st.n_snps ≤ st.current_length ∧ 2 * st.n_snps ≤ st.current_length := by
  intro st hmem
  have h2 : 2 * st.n_snps ≤ st.current_length := by
    refine bufferStep_invariant _ _ ?_ (by norm_num) st hmem
    intro d hdm
    rcases List.mem_map.mp hdm with ⟨s, hs, rfl⟩
    exact hd s hs
  exact ⟨by omega, h2⟩

/-- Witness for C10 at a two-base reference and a one-record input. -/
theorem buffer_growth_invariant_witness :
    (∀ s ∈ (["aa"] : List String),
        snpTripleCount [97, 97] (sequence_to_int_array s 110 true) ≤ 500000)
      ∧ ∀ st ∈ bufferTrace [97, 97] ["aa"],
          st.n_snps ≤ st.current_length ∧ 2 * st.n_snps ≤ st.current_length :=
  ⟨by decide, buffer_growth_invariant [97, 97] ["aa"] (by decide)⟩

theorem snpFinish_pos (c : List Nat) (nseqs : Nat) (h : nseqs ≠ 0) (ns : List String)
    (rows fps : List (List Nat)) (rem : List SeqRecord) :
    snpFinish (some c) nseqs ns rows fps rem = (some ⟨rows, c, ns, fps⟩, rem) := by
  simp [snpFinish, h]

theorem zipWith_map_same {α β γ δ : Type} (f : α → β) (g : α → γ) (h : β → γ → δ) :
    ∀ l : List α, List.zipWith h (l.map f) (l.map g) = l.map (fun x => h (f x) (g x)) := by
  intro l
  induction l with
  | nil => rfl
  | cons a l ih => simp [ih]

/-- Characterization of one encoder call with an explicitly supplied consensus,
no ignored names, and records of the correct length: it accepts exactly the
next `k - nseqs` records (all of them when fewer remain) and leaves the rest
unconsumed. -/
theorem snpLoop_char (fv k : Nat) (cons : List Nat) :
    ∀ (recs : List SeqRecord) (nseqs : Nat) (ns : List String) (rows fps : List (List Nat)),
      nseqs < k →
      (∀ r ∈ recs, r.seq.length = cons.length) →
      snpLoop fv k [] recs (some cons) nseqs ns rows fps =
        .ok (snpFinish (some cons) (nseqs + (recs.take (k - nseqs)).length)
          (ns ++ (recs.take (k - nseqs)).map SeqRecord.name)
          (rows ++ (recs.take (k - nseqs)).map
            (fun r => snpRow cons (sequence_to_int_array r.seq fv true) fv))
          (fps ++ (recs.take (k - nseqs)).map
            (fun r => filledPositions (sequence_to_int_array r.seq fv true) fv))
          (recs.drop (k - nseqs))) := by
  intro recs
  induction recs with
  | nil =>
      intro nseqs ns rows fps hnk hlen
      simp [snpLoop]
  | cons r rest ih =>
      intro nseqs ns rows fps hnk hlen
      have hrlen : r.seq.length = cons.length := hlen r (List.mem_cons_self _ _)
      simp only [snpLoop]
      rw [if_neg (List.not_mem_nil r.name)]
      simp only [Option.getD_some]
      rw [if_neg (by simp [hrlen])]
      by_cases hc : k ≠ 0 ∧ nseqs + 1 = k
      · rw [if_pos hc]
        have h1 : k - nseqs = 1 := by omega
        rw [h1]
        simp [List.take_succ_cons, List.drop_succ_cons]
      · rw [if_neg hc]
        push_neg at hc
        have hnk1 : nseqs + 1 < k := by
          rcases Nat.eq_zero_or_pos k with h0 | h0
          · omega
          · have := hc (by omega)
            omega
        rw [ih (nseqs + 1) (ns ++ [r.name]) _ _ hnk1
          (fun x hx => hlen x (List.mem_cons_of_mem _ hx))]
        have hkn : k - nseqs = (k - (nseqs + 1)) + 1 := by omega
        rw [hkn, List.take_succ_cons, List.drop_succ_cons]
        have harith : ∀ t : Nat, nseqs + 1 + t = nseqs + (t + 1) := by omega
        simp [List.append_assoc, List.singleton_append, List.length_cons,
          List.map_cons, harith]

/-- One chunk's per-sequence results depend only on the records the chunk
encoded: `chunkResults` on an encoder result built from a record list is the
map of `recordResult` over the records. -/
theorem chunkResults_of_maps (focal : SnpResult) (ref : List Nat)
    (rs : List SeqRecord) (fps : List (List Nat)) :
    chunkResults focal ref.length
        ⟨rs.map (fun r => snpRow ref (sequence_to_int_array r.seq 110 true) 110), ref,
          rs.map SeqRecord.name, fps⟩
      = rs.map (recordResult focal ref) := by
  simp only [chunkResults, calculate_distance_matrix, List.map_map]
  exact zipWith_map_same _ _ _ rs

theorem mainLoopAux_eq_map (focal : SnpResult) (ref : List Nat) (k : Nat) (hk : 0 < k) :
    ∀ (fuel : Nat) (records : List SeqRecord), records.length < fuel →
      (∀ r ∈ records, r.seq.length = ref.length) →
      mainLoopAux focal ref k fuel records = .ok (records.map (recordResult focal ref)) := by
  intro fuel
  induction fuel with
  | zero =>
      intro records h _
      exact absurd h (Nat.not_lt_zero _)
  | succ fuel ih =>
      intro records hfuel hlen
      cases records with
      | nil => simp [mainLoopAux, calculate_snp_matrix, snpLoop, snpFinish]
      | cons r rest =>
          have hchar := snpLoop_char 110 k ref (r :: rest) 0 [] [] [] hk hlen
          simp only [Nat.sub_zero, Nat.zero_add, List.nil_append] at hchar
          have hne0 : ((r :: rest).take k).length ≠ 0 := by
            simp only [List.length_take]
            simp only [List.length_cons]
            omega
          have h1 : calculate_snp_matrix (r :: rest) (some ref) 110 k [] =
              .ok (some ⟨(r :: rest).take k |>.map
                    (fun x => snpRow ref (sequence_to_int_array x.seq 110 true) 110),
                  ref,
                  (r :: rest).take k |>.map SeqRecord.name,
                  (r :: rest).take k |>.map
                    (fun x => filledPositions (sequence_to_int_array x.seq 110 true) 110)⟩,
                (r :: rest).drop k) := by
            rw [calculate_snp_matrix, hchar, snpFinish_pos _ _ hne0]
          have hdroplen : ((r :: rest).drop k).length < fuel := by
            simp only [List.length_drop, List.length_cons]
            simp only [List.length_cons] at hfuel
            omega
          have h2 : mainLoopAux focal ref k fuel ((r :: rest).drop k) =
              .ok (((r :: rest).drop k).map (recordResult focal ref)) :=
            ih _ hdroplen (fun x hx => hlen x (List.mem_of_mem_drop hx))
          simp only [mainLoopAux, h1, h2]
          rw [chunkResults_of_maps]
          rw [← List.map_append, List.take_append_drop]

/-- C5: with a fixed focal set and an explicitly supplied reference, processing
a context set of `N` equal-length sequences in chunks of any positive size `k`
produces exactly the same per-sequence (closest focal identifier, distance)
results as processing all `N` sequences in a single chunk of size `N`. -/
theorem chunking_invariance (focal : SnpResult) (ref : List Nat)
    (records : List SeqRecord) (k : Nat) (hk : 0 < k)
    (hlen : ∀ r ∈ records, r.seq.length = ref.length) :
    mainChunkLoop focal ref k records = mainChunkLoop focal ref records.length records := by
  by_cases h0 : records = []
  · subst h0; rfl
  · have hN : 0 < records.length := List.length_pos.mpr h0
    unfold mainChunkLoop
    rw [mainLoopAux_eq_map focal ref k hk (records.length + 1) records (by omega) hlen,
      mainLoopAux_eq_map focal ref records.length hN (records.length + 1) records
        (by omega) hlen]

/-- Witness for C5: two two-base context records against a two-base reference,
chunk size 1 versus a single chunk of size 2. -/
theorem chunking_invariance_witness :
    (0 < 1)
      ∧ (∀ r ∈ ([⟨"c1", "ac"⟩, ⟨"c2", "an"⟩] : List SeqRecord),
          r.seq.length = ([97, 99] : List Nat).length)
      ∧ mainChunkLoop focalW [97, 99] 1 [⟨"c1", "ac"⟩, ⟨"c2", "an"⟩]
          = mainChunkLoop focalW [97, 99]
              ([⟨"c1", "ac"⟩, ⟨"c2", "an"⟩] : List SeqRecord).length
              [⟨"c1", "ac"⟩, ⟨"c2", "an"⟩] :=
  ⟨by decide, by decide,
    chunking_invariance focalW [97, 99] [⟨"c1", "ac"⟩, ⟨"c2", "an"⟩] 1 (by decide) (by decide)⟩

end Ncov
